import Mathlib

/-!
Shallow embedding of the bitstream reader and level_prefix parser from
`codec/h264/h264dec/fuzz` (`helpers.c`, `fuzzParseLevelPrefix/parse_level_prefix.c`).

Modelling decisions, all taken from the C source as compiled on the
mainstream x86-64 Linux toolchain (gcc/clang defaults):
* `char` is signed; converting a `char` holding a byte `b >= 0x80` to
  `uint64_t` sign-extends.  Memory is modelled as a total function
  `Nat -> Int` of `char` values; the bytes of a concrete buffer are
  injected with `charOfByte`.
* the `uint64_t` accumulator wraps modulo `2 ^ 64` on shifts;
* the mask `(1 << n) - 1` is computed in 32-bit `int` arithmetic: the
  hardware masks the shift count to 5 bits, and `0x80000000 - 1` wraps to
  `0x7FFFFFFF`, so the mask value is `2 ^ (n % 32) - 1` (non-negative, so
  its conversion to `uint64_t` is the identity);
* the `Reader` carries a ghost field `oob` (not present in the C struct)
  that records that `data[curr]` was evaluated with `curr >= len`, i.e.
  that the C program performed an out-of-bounds read.
-/

/-- Signed-char value of a byte, as on x86-64 (values `>= 128` are negative). -/
def charOfByte (b : Nat) : Int :=
  if b % 256 < 128 then ((b % 256 : Nat) : Int) else ((b % 256 : Nat) : Int) - 256

/-- The process memory seen through a `char*` whose first `l.length` cells hold
the bytes of `l`; cells past the end read as 0 (C gives no such guarantee; the
noninterference result quantifies over arbitrary contents there). -/
def memOfBytes (l : List Nat) : Nat → Int :=
  fun i => charOfByte (l.getD i 0)

/-- `(uint64_t)b` for a `char` value `b`: reduction modulo `2 ^ 64`
(sign extension for negative values). -/
def u64ofChar (c : Int) : Nat :=
  (c % (2 ^ 64 : Int)).toNat

/-- The unsigned byte stored at cell `i` of the memory `mem`. -/
def byteAt (mem : Nat → Int) (i : Nat) : Nat :=
  u64ofChar (mem i) % 256

/-- Bit `k` of a byte buffer, MSB-first within each byte and across byte
boundaries, 0-indexed from the start of the buffer (the spec's bit-string
view of the buffer). -/
def bitAt (l : List Nat) (k : Nat) : Nat :=
  (l.getD (k / 8) 0 >>> (7 - k % 8)) &&& 1

/-- The unsigned integer formed by the first `n` bits of the buffer, read
MSB-first (the spec's expected value of `readBits n` on a fresh reader). -/
def bitsVal (l : List Nat) : Nat → Nat
  | 0 => 0
  | n + 1 => 2 * bitsVal l n + bitAt l n

/-- Bit `t` of the byte stream presented by memory `mem`, MSB-first. -/
def bitOfStream (mem : Nat → Int) (t : Nat) : Nat :=
  byteAt mem (t / 8) / 2 ^ (7 - t % 8) % 2

/-- `struct Reader` from `helpers.h` (`data` is passed separately as the
memory function; `oob` is ghost instrumentation, see the header comment). -/
structure Reader where
  curr : Nat
  len : Nat
  err : Bool
  oob : Bool
deriving DecidableEq

/-- `struct BitReader` from `helpers.h`. `n` is the `uint64_t` accumulator. -/
structure BitReader where
  r : Reader
  n : Nat
  bits : Nat
  nRead : Nat
  err : Bool
deriving DecidableEq

/-- `new_BitReader` from `helpers.c` (the `malloc`-failure path returns NULL
and is not modelled: no claim concerns it). -/
def new_BitReader (len : Nat) : BitReader :=
  { r := { curr := 0, len := len, err := false, oob := false }
    n := 0, bits := 0, nRead := 0, err := false }

/-- `next_byte` from `helpers.c`: sets `err` when `curr >= len`, then reads
`data[curr]` unconditionally (an out-of-bounds access in the error case,
recorded in `oob`), then advances `curr`. -/
def next_byte (mem : Nat → Int) (r : Reader) : Int × Reader :=
  (mem r.curr,
    { curr := r.curr + 1
      len := r.len
      err := if r.len ≤ r.curr then true else r.err
      oob := r.oob || decide (r.len ≤ r.curr) })

/-- The value of the C expression `(1 << n) - 1` (32-bit `int` arithmetic on
x86-64: shift count masked to 5 bits, wrap-around subtraction), converted to
`uint64_t` (identity: the value is always in `[0, 2^31 - 1]`). -/
def cMask (n : Nat) : Nat :=
  2 ^ (n % 32) - 1

/-- `read_bits` from `helpers.c`.  The C `while (n > br->bits)` refill loop is
the recursive branch; the extraction shift `br->n >> (br->bits - n)` is a
`uint64_t` shift whose count stays below 8 in every reachable state. -/
def read_bits (mem : Nat → Int) (br : BitReader) (n : Nat) : Nat × BitReader :=
  if n ≤ br.bits then
    ((br.n >>> (br.bits - n)) &&& cMask n, { br with bits := br.bits - n })
  else if (next_byte mem br.r).2.err then
    (0, { br with r := (next_byte mem br.r).2, err := true })
  else
    read_bits mem
      { br with
        r := (next_byte mem br.r).2
        nRead := br.nRead + 1
        n := ((br.n <<< 8) % 2 ^ 64) ||| u64ofChar (next_byte mem br.r).1
        bits := br.bits + 8 } n
termination_by n - br.bits
decreasing_by omega

/-- The loop of `read_levelprefix` from `parse_level_prefix.c`, with explicit
fuel.  `lead` is `leadingZeroBits`; each non-error iteration increments it
(the C `for`-update) and the loop exits as soon as a read bit is nonzero. -/
def read_levelprefix_aux (mem : Nat → Int) : Nat → Int → BitReader → Option (Int × BitReader)
  | 0, _, _ => none
  | fuel + 1, lead, br =>
    let p := read_bits mem br 1
    if p.2.err then some (-1, p.2)
    else if p.1 = 0 then read_levelprefix_aux mem fuel (lead + 1) p.2
    else some (lead + 1, p.2)

/-- `read_levelprefix` from `parse_level_prefix.c`, run on a fresh reader over
a buffer of `len` bytes.  Fuel `8 * len + 1` is shown sufficient for every
input (the termination theorem), so the `Option` is always `some`. -/
def read_levelprefix (mem : Nat → Int) (len : Nat) : Option (Int × BitReader) :=
  read_levelprefix_aux mem (8 * len + 1) (-1) (new_BitReader len)

/-- Folds a sequence of `read_bits` calls, collecting the returned values and
the final reader state. -/
def runSeq (mem : Nat → Int) (br : BitReader) : List Nat → List Nat × BitReader
  | [] => ([], br)
  | n :: ns =>
    let p := read_bits mem br n
    let q := runSeq mem p.2 ns
    (p.1 :: q.1, q.2)

/-- State of a fresh reader after `t` single-bit reads have succeeded:
`nRead` counts `⌈t/8⌉` fetched bytes, `bits` the unconsumed remainder of the
last byte, and the low 8 bits of the accumulator hold that byte. -/
def goodState (mem : Nat → Int) (len t : Nat) (br : BitReader) : Prop :=
  br.err = false ∧ br.r.err = false ∧ br.r.len = len ∧
  br.nRead = (t + 7) / 8 ∧ br.r.curr = br.nRead ∧
  br.bits + t = 8 * br.nRead ∧ t ≤ 8 * len ∧ br.nRead ≤ len ∧
  (0 < br.bits → br.n % 256 = byteAt mem (br.nRead - 1))

/-! ### Basic facts about the embedded operations -/

/-- The value `(1 << 1) - 1` is 1. -/
theorem cMask_one : cMask 1 = 1 := by decide

/-- Extracting with the mask for 1 keeps only the lowest bit. -/
theorem and_cMask_one (x : Nat) : x &&& cMask 1 = x % 2 := by
  rw [cMask_one, Nat.and_one_is_mod]

/-- A bit below position 8 is determined by the residue modulo 256. -/
theorem lowbit_eq {acc b j : Nat} (hj : j < 8) (h : acc % 256 = b) :
    acc / 2 ^ j % 2 = b / 2 ^ j % 2 := by
  interval_cases j <;> omega

/-- If the low byte of `a` is clear, `a ||| b` and `b` agree modulo 256. -/
theorem or_low8 {a : Nat} (b : Nat) (ha : a % 256 = 0) :
    (a ||| b) % 256 = b % 256 := by
  have h256 : (256 : Nat) = 2 ^ 8 := by norm_num
  rw [h256]
  apply Nat.eq_of_testBit_eq
  intro i
  rw [Nat.testBit_mod_two_pow, Nat.testBit_mod_two_pow, Nat.testBit_or]
  rcases Nat.lt_or_ge i 8 with hi | hi
  · have : a.testBit i = false := by
      have := Nat.testBit_mod_two_pow a 8 i
      rw [← h256, ha] at this
      simp [Nat.zero_testBit, hi] at this
      simp [this]
    simp [this]
  · simp [Nat.not_lt.mpr hi]

/-- The refilled accumulator has a clear low byte before the OR. -/
theorem shifted_acc_low8 (x : Nat) : (x <<< 8 % 2 ^ 64) % 256 = 0 := by
  rw [Nat.shiftLeft_eq]
  omega

/-- `next_byte` never changes the buffer length. -/
theorem next_byte_len (mem : Nat → Int) (r : Reader) :
    (next_byte mem r).2.len = r.len := rfl

/-- `read_bits` never changes the buffer length. -/
theorem read_bits_len (mem : Nat → Int) (br : BitReader) (n : Nat) :
    (read_bits mem br n).2.r.len = br.r.len := by
  induction br, n using read_bits.induct mem with
  | case1 br n h => rw [read_bits.eq_def]; simp [h]
  | case2 br n h hp => rw [read_bits.eq_def]; simp only [if_neg h]; rw [if_pos hp]; rfl
  | case3 br n h hp ih =>
      rw [read_bits.eq_def]
      simp only [if_neg h, hp, if_neg Bool.false_ne_true]
      exact ih

/-- `read_bits` never clears a previously set error flag. -/
theorem read_bits_err_mono (mem : Nat → Int) (br : BitReader) (n : Nat)
    (h : br.err = true) : (read_bits mem br n).2.err = true := by
  induction br, n using read_bits.induct mem with
  | case1 br n hle => rw [read_bits.eq_def]; simp [hle]; exact h
  | case2 br n hle hp => rw [read_bits.eq_def]; simp [hle, hp]
  | case3 br n hle hp ih =>
      rw [read_bits.eq_def]
      simp only [if_neg hle, hp, if_neg Bool.false_ne_true]
      exact ih h

/-- After a successful `read_bits` call that started with fewer than `n + 8`
buffered bits, at most 7 bits remain buffered: the refill loop stops as soon
as the request is satisfiable, and extraction removes `n` bits. -/
theorem read_bits_bits_le (mem : Nat → Int) (br : BitReader) (n : Nat)
    (hin : br.bits < n + 8) (hok : (read_bits mem br n).2.err = false) :
    (read_bits mem br n).2.bits ≤ 7 := by
  induction br, n using read_bits.induct mem with
  | case1 br n hle =>
      rw [read_bits.eq_def]
      simp only [if_pos hle]
      show br.bits - n ≤ 7
      omega
  | case2 br n hle hp =>
      rw [read_bits.eq_def] at hok
      simp only [if_neg hle] at hok
      rw [if_pos hp] at hok
      simp at hok
  | case3 br n hle hp ih =>
      rw [read_bits.eq_def] at hok ⊢
      simp only [if_neg hle] at hok ⊢
      rw [if_neg hp] at hok ⊢
      exact ih (by show br.bits + 8 < n + 8 ; omega) hok

/-- `read_bits` depends on the memory only through the cells below the
buffer length: the byte fetched out of bounds is discarded on the error
branch before it can influence the result or the reader state. -/
theorem read_bits_mem_congr (mem₁ mem₂ : Nat → Int) (br : BitReader) (n : Nat)
    (hagree : ∀ i, i < br.r.len → mem₁ i = mem₂ i) :
    read_bits mem₁ br n = read_bits mem₂ br n := by
  induction br, n using read_bits.induct mem₁ with
  | case1 br n hle =>
      conv_lhs => rw [read_bits.eq_def]
      conv_rhs => rw [read_bits.eq_def]
      simp only [if_pos hle]
  | case2 br n hle hp =>
      have hnb2 : (next_byte mem₂ br.r).2 = (next_byte mem₁ br.r).2 := rfl
      conv_lhs => rw [read_bits.eq_def]
      conv_rhs => rw [read_bits.eq_def]
      simp only [if_neg hle, hnb2]
      rw [if_pos hp, if_pos hp]
  | case3 br n hle hp ih =>
      have hcurr : br.r.curr < br.r.len := by
        by_contra hcon
        simp [next_byte, Nat.le_of_not_lt hcon] at hp
      have hnb : next_byte mem₁ br.r = next_byte mem₂ br.r := by
        simp [next_byte, hagree _ hcurr]
      conv_lhs => rw [read_bits.eq_def]
      conv_rhs => rw [read_bits.eq_def]
      simp only [if_neg hle, ← hnb]
      rw [if_neg hp, if_neg hp]
      exact ih hagree

/-- `read_bits` when the request is satisfiable from buffered bits:
no byte is fetched, the top `n` valid bits are extracted and masked. -/
theorem read_bits_extract (mem : Nat → Int) (br : BitReader) (n : Nat)
    (hb : n ≤ br.bits) :
    read_bits mem br n =
      ((br.n >>> (br.bits - n)) &&& cMask n, { br with bits := br.bits - n }) := by
  rw [read_bits.eq_def, if_pos hb]

/-- `read_bits` when a refill is needed and the cursor is in bounds with no
prior error: one byte is fetched and shifted into the accumulator. -/
theorem read_bits_fetch (mem : Nat → Int) (br : BitReader) (n : Nat)
    (hb : br.bits < n) (hok : br.r.err = false) (hlt : br.r.curr < br.r.len) :
    read_bits mem br n =
      read_bits mem
        { br with
          r := (next_byte mem br.r).2
          nRead := br.nRead + 1
          n := ((br.n <<< 8) % 2 ^ 64) ||| u64ofChar (mem br.r.curr)
          bits := br.bits + 8 } n := by
  conv_lhs => rw [read_bits.eq_def]
  rw [if_neg (by omega)]
  have hfe : (next_byte mem br.r).2.err = false := by
    simp [next_byte, Nat.not_le.mpr hlt, hok]
  rw [hfe, if_neg Bool.false_ne_true]
  rfl

/-- `read_bits` when a refill is needed but the cursor has run off the end
(or the cursor error is already set): returns 0 and sets the sticky error;
the cursor still advances and the ghost `oob` flag records the
out-of-bounds access. -/
theorem read_bits_fail_step (mem : Nat → Int) (br : BitReader) (n : Nat)
    (hb : br.bits < n) (hge : br.r.len ≤ br.r.curr ∨ br.r.err = true) :
    read_bits mem br n = (0, { br with r := (next_byte mem br.r).2, err := true }) := by
  rw [read_bits.eq_def, if_neg (by omega)]
  have hfe : (next_byte mem br.r).2.err = true := by
    rcases hge with h | h
    · simp [next_byte, h]
    · simp [next_byte, h]
  rw [if_pos hfe]

/-- A single-bit read from a good state at stream position `t < 8 * len`
succeeds, returns bit `t` of the stream, and leads to the good state at
`t + 1`. -/
theorem read1_success (mem : Nat → Int) (len t : Nat) (br : BitReader)
    (hg : goodState mem len t br) (ht : t < 8 * len) :
    (read_bits mem br 1).1 = bitOfStream mem t ∧
    goodState mem len (t + 1) (read_bits mem br 1).2 := by
  obtain ⟨herr, hrerr, hlen, hnr, hcurr, hbt, htle, hnle, hacc⟩ := hg
  have hbits7 : br.bits ≤ 7 := by omega
  rcases Nat.eq_zero_or_pos br.bits with hb0 | hbpos
  · -- the buffered bits are exhausted: fetch byte `nRead`, then extract its MSB
    have hnlt : br.nRead < len := by omega
    have hcl : br.r.curr < br.r.len := by omega
    rw [read_bits_fetch mem br 1 (by omega) hrerr hcl]
    rw [read_bits_extract mem _ 1 (by show 1 ≤ br.bits + 8 ; omega)]
    have hacc1 : ((br.n <<< 8 % 2 ^ 64) ||| u64ofChar (mem br.r.curr)) % 256 =
        byteAt mem br.r.curr :=
      or_low8 (u64ofChar (mem br.r.curr)) (shifted_acc_low8 br.n)
    have hb81 : br.bits + 8 - 1 = 7 := by omega
    constructor
    · show ((br.n <<< 8 % 2 ^ 64) ||| u64ofChar (mem br.r.curr)) >>> (br.bits + 8 - 1) &&&
        cMask 1 = bitOfStream mem t
      rw [hb81, and_cMask_one, Nat.shiftRight_eq_div_pow]
      have hv := lowbit_eq (by norm_num) hacc1 (j := 7)
      rw [hv]
      unfold bitOfStream
      have h1 : t / 8 = br.r.curr := by omega
      have h2 : 7 - t % 8 = 7 := by omega
      rw [h1, h2]
    · refine ⟨herr, ?_, ?_, ?_, ?_, ?_, ?_, ?_, ?_⟩
      · show (next_byte mem br.r).2.err = false
        simp [next_byte, Nat.not_le.mpr hcl, hrerr]
      · show br.r.len = len
        exact hlen
      · show br.nRead + 1 = (t + 1 + 7) / 8
        omega
      · show br.r.curr + 1 = br.nRead + 1
        omega
      · show br.bits + 8 - 1 + (t + 1) = 8 * (br.nRead + 1)
        omega
      · omega
      · show br.nRead + 1 ≤ len
        omega
      · intro _
        show ((br.n <<< 8 % 2 ^ 64) ||| u64ofChar (mem br.r.curr)) % 256 =
          byteAt mem (br.nRead + 1 - 1)
        rw [hacc1]
        have : br.r.curr = br.nRead + 1 - 1 := by omega
        rw [this]
  · -- at least one buffered bit: extract the top valid bit, no fetch
    have hnr1 : 1 ≤ br.nRead := by omega
    have haccv := hacc hbpos
    rw [read_bits_extract mem br 1 hbpos]
    constructor
    · show br.n >>> (br.bits - 1) &&& cMask 1 = bitOfStream mem t
      rw [and_cMask_one, Nat.shiftRight_eq_div_pow]
      have hv := lowbit_eq (j := br.bits - 1) (by omega) haccv
      rw [hv]
      unfold bitOfStream
      have h1 : t / 8 = br.nRead - 1 := by omega
      have h2 : 7 - t % 8 = br.bits - 1 := by omega
      rw [h1, h2]
    · refine ⟨herr, hrerr, hlen, ?_, ?_, ?_, ?_, hnle, ?_⟩
      · show br.nRead = (t + 1 + 7) / 8
        omega
      · exact hcurr
      · show br.bits - 1 + (t + 1) = 8 * br.nRead
        omega
      · omega
      · intro h1
        show br.n % 256 = byteAt mem (br.nRead - 1)
        exact haccv

/-- A single-bit read from the good state at the end of the stream fails:
the fetch is out of bounds, the value is 0, both error flags are set, and
`nRead` stays at the full buffer length. -/
theorem read1_fail (mem : Nat → Int) (len : Nat) (br : BitReader)
    (hg : goodState mem len (8 * len) br) :
    (read_bits mem br 1).1 = 0 ∧
    (read_bits mem br 1).2.err = true ∧
    (read_bits mem br 1).2.nRead = len ∧
    (read_bits mem br 1).2.r.oob = true := by
  obtain ⟨herr, hrerr, hlen, hnr, hcurr, hbt, htle, hnle, hacc⟩ := hg
  have hn : br.nRead = len := by omega
  have hb0 : br.bits = 0 := by omega
  have hge : br.r.len ≤ br.r.curr := by omega
  rw [read_bits_fail_step mem br 1 (by omega) (Or.inl hge)]
  refine ⟨rfl, rfl, hn, ?_⟩
  show (next_byte mem br.r).2.oob = true
  simp [next_byte, hge]

/-- Unfolding the parser loop one iteration at a time. -/
theorem read_levelprefix_aux_succ (mem : Nat → Int) (fuel : Nat) (lead : Int)
    (br : BitReader) :
    read_levelprefix_aux mem (fuel + 1) lead br =
      if (read_bits mem br 1).2.err then some (-1, (read_bits mem br 1).2)
      else if (read_bits mem br 1).1 = 0 then
        read_levelprefix_aux mem fuel (lead + 1) (read_bits mem br 1).2
      else some (lead + 1, (read_bits mem br 1).2) := rfl

/-- From a good state at position `t`, if bits `t .. k - 1` of the stream are
zero and bit `k` is one, the parser loop returns `lead + (k - t) + 1` (with
enough fuel). -/
theorem aux_first_one (mem : Nat → Int) (len : Nat) :
    ∀ (fuel t k : Nat) (lead : Int) (br : BitReader),
      goodState mem len t br → t ≤ k → k < 8 * len →
      (∀ j, t ≤ j → j < k → bitOfStream mem j = 0) →
      bitOfStream mem k = 1 → k - t < fuel →
      ∃ br', read_levelprefix_aux mem fuel lead br = some (lead + ((k - t : Nat) : Int) + 1, br')
  | 0, t, k, lead, br => by omega
  | fuel + 1, t, k, lead, br => by
    intro hg htk hk hzero hone hfuel
    obtain ⟨hval, hg'⟩ := read1_success mem len t br hg (by omega)
    have herr' : (read_bits mem br 1).2.err = false := hg'.1
    rw [read_levelprefix_aux_succ, herr', if_neg Bool.false_ne_true]
    rcases Nat.eq_or_lt_of_le htk with heq | hlt
    · subst heq
      rw [hval, hone]
      rw [if_neg (by norm_num)]
      exact ⟨(read_bits mem br 1).2, by simp⟩
    · rw [hval, hzero t (le_refl t) hlt, if_pos rfl]
      obtain ⟨br', hrec⟩ := aux_first_one mem len fuel (t + 1) k (lead + 1)
        (read_bits mem br 1).2 hg' (by omega) hk
        (fun j hj1 hj2 => hzero j (by omega) hj2) hone (by omega)
      refine ⟨br', ?_⟩
      rw [hrec]
      have : lead + 1 + ((k - (t + 1) : Nat) : Int) + 1 = lead + ((k - t : Nat) : Int) + 1 := by
        have h1 : ((k - (t + 1) : Nat) : Int) = ((k - t : Nat) : Int) - 1 := by
          omega
        rw [h1]
        ring
      rw [this]

/-- From a good state at position `t`, if every remaining bit of the stream
is zero, the parser loop consumes the whole buffer and returns the sentinel
`-1` with both error flags set and `nRead` equal to the buffer length. -/
theorem aux_all_zero (mem : Nat → Int) (len : Nat) :
    ∀ (fuel t : Nat) (lead : Int) (br : BitReader),
      goodState mem len t br →
      (∀ j, t ≤ j → j < 8 * len → bitOfStream mem j = 0) →
      8 * len - t < fuel →
      ∃ br', read_levelprefix_aux mem fuel lead br = some (-1, br') ∧
        br'.err = true ∧ br'.nRead = len ∧ br'.r.oob = true
  | 0, t, lead, br => by omega
  | fuel + 1, t, lead, br => by
    intro hg hzero hfuel
    rcases Nat.lt_or_ge t (8 * len) with hlt | hge
    · obtain ⟨hval, hg'⟩ := read1_success mem len t br hg hlt
      have herr' : (read_bits mem br 1).2.err = false := hg'.1
      rw [read_levelprefix_aux_succ, herr', if_neg Bool.false_ne_true]
      rw [hval, hzero t (le_refl t) hlt, if_pos rfl]
      exact aux_all_zero mem len fuel (t + 1) (lead + 1) (read_bits mem br 1).2 hg'
        (fun j hj1 hj2 => hzero j (by omega) hj2) (by omega)
    · have hteq : t = 8 * len := by
        obtain ⟨_, _, _, _, _, _, htle, _, _⟩ := hg
        omega
      subst hteq
      obtain ⟨hval, herr, hnr, hoob⟩ := read1_fail mem len br hg
      rw [read_levelprefix_aux_succ, herr, if_pos rfl]
      exact ⟨(read_bits mem br 1).2, rfl, herr, hnr, hoob⟩

/-- From a good state, the parser loop always returns within
`8 * len - t + 1` iterations: each successful single-bit read advances the
stream position, and position `8 * len` forces the failure exit. -/
theorem aux_total (mem : Nat → Int) (len : Nat) :
    ∀ (fuel t : Nat) (lead : Int) (br : BitReader),
      goodState mem len t br → 8 * len - t < fuel →
      (read_levelprefix_aux mem fuel lead br).isSome = true
  | 0, t, lead, br => by omega
  | fuel + 1, t, lead, br => by
    intro hg hfuel
    rcases Nat.lt_or_ge t (8 * len) with hlt | hge
    · obtain ⟨hval, hg'⟩ := read1_success mem len t br hg hlt
      have herr' : (read_bits mem br 1).2.err = false := hg'.1
      rw [read_levelprefix_aux_succ, herr', if_neg Bool.false_ne_true]
      rcases Nat.eq_zero_or_pos (read_bits mem br 1).1 with h0 | hpos
      · rw [h0, if_pos rfl]
        exact aux_total mem len fuel (t + 1) (lead + 1) (read_bits mem br 1).2 hg' (by omega)
      · rw [if_neg (by omega)]
        rfl
    · have hteq : t = 8 * len := by
        obtain ⟨_, _, _, _, _, _, htle, _, _⟩ := hg
        omega
      subst hteq
      obtain ⟨hval, herr, hnr, hoob⟩ := read1_fail mem len br hg
      rw [read_levelprefix_aux_succ, herr, if_pos rfl]
      rfl

/-- The fresh reader is the good state at stream position 0. -/
theorem goodState_new (mem : Nat → Int) (len : Nat) :
    goodState mem len 0 (new_BitReader len) := by
  refine ⟨rfl, rfl, rfl, by norm_num [new_BitReader], rfl, rfl, by omega, by
    norm_num [new_BitReader], ?_⟩
  intro h
  simp [new_BitReader] at h

/-- The byte seen through the signed-char memory of a byte list is the
byte's value reduced modulo 256. -/
theorem byteAt_memOfBytes (l : List Nat) (i : Nat) :
    byteAt (memOfBytes l) i = l.getD i 0 % 256 := by
  unfold byteAt memOfBytes u64ofChar charOfByte
  have h64 : (2 : Int) ^ 64 = 18446744073709551616 := by norm_num
  rw [h64]
  split <;> omega

/-- The MSB-first bit-string views of a byte list and of its signed-char
memory agree at every index. -/
theorem bitAt_eq_bitOfStream (l : List Nat) (k : Nat) :
    bitAt l k = bitOfStream (memOfBytes l) k := by
  unfold bitAt bitOfStream
  rw [Nat.shiftRight_eq_div_pow, Nat.and_one_is_mod, byteAt_memOfBytes]
  exact lowbit_eq (by omega) rfl

/-- A sequence of `read_bits` calls never clears a previously set error. -/
theorem runSeq_err_mono (mem : Nat → Int) (ns : List Nat) :
    ∀ br : BitReader, br.err = true → (runSeq mem br ns).2.err = true := by
  induction ns with
  | nil => intro br h; exact h
  | cons n ns ih =>
      intro br h
      show (runSeq mem (read_bits mem br n).2 ns).2.err = true
      exact ih _ (read_bits_err_mono mem br n h)

/-- Across any sequence of requests that ends without an error, at most 7
bits remain buffered after every call. -/
theorem runSeq_bits_le (mem : Nat → Int) (ns : List Nat) :
    ∀ br : BitReader, br.bits ≤ 7 → (runSeq mem br ns).2.err = false →
      (runSeq mem br ns).2.bits ≤ 7 := by
  induction ns with
  | nil => intro br h _; exact h
  | cons n ns ih =>
      intro br h hok
      have hok' : (read_bits mem br n).2.err = false := by
        by_contra hcon
        have := runSeq_err_mono mem ns (read_bits mem br n).2
          (Bool.of_not_eq_false hcon)
        rw [show (runSeq mem br (n :: ns)).2 = (runSeq mem (read_bits mem br n).2 ns).2
          from rfl] at hok
        rw [this] at hok
        simp at hok
      show (runSeq mem (read_bits mem br n).2 ns).2.bits ≤ 7
      exact ih _ (read_bits_bits_le mem br n (by omega) hok') (by
        rw [show (runSeq mem br (n :: ns)).2 = (runSeq mem (read_bits mem br n).2 ns).2
          from rfl] at hok
        exact hok)

/-- A sequence of `read_bits` calls depends only on the memory cells below
the buffer length. -/
theorem runSeq_mem_congr (mem₁ mem₂ : Nat → Int) (ns : List Nat) :
    ∀ br : BitReader, (∀ i, i < br.r.len → mem₁ i = mem₂ i) →
      runSeq mem₁ br ns = runSeq mem₂ br ns := by
  induction ns with
  | nil => intro br _; rfl
  | cons n ns ih =>
      intro br hagree
      have h1 := read_bits_mem_congr mem₁ mem₂ br n hagree
      show ((read_bits mem₁ br n).1 :: (runSeq mem₁ (read_bits mem₁ br n).2 ns).1,
          (runSeq mem₁ (read_bits mem₁ br n).2 ns).2) =
        ((read_bits mem₂ br n).1 :: (runSeq mem₂ (read_bits mem₂ br n).2 ns).1,
          (runSeq mem₂ (read_bits mem₂ br n).2 ns).2)
      rw [← h1]
      have h2 := ih (read_bits mem₁ br n).2 (by
        rw [read_bits_len mem₁ br n]
        exact hagree)
      rw [h2]

/-! ### Claim theorems -/

/-- Claim C9: for every finite input buffer, `read_levelprefix` terminates,
and `8 * len + 1` loop iterations (the fuel of the embedding) always
suffice: either a 1-bit is met or exhausting the buffer forces a
`read_bits` failure. -/
theorem claim9_levelprefix_terminates (mem : Nat → Int) (len : Nat) :
    ( read_levelprefix mem len).isSome = true := by
  unfold read_levelprefix
  exact aux_total mem len (8 * len + 1) 0 (-1) (new_BitReader len)
    (goodState_new mem len) (by omega)

/-- Claim C8: after every successful `read_bits` call in any call sequence
from a fresh reader, at most one partially consumed byte remains buffered:
the valid-bit count is between 0 and 7. -/
theorem claim8_no_overread (mem : Nat → Int) (len : Nat) (ns : List Nat)
    (_hpos : ∀ n ∈ ns, 1 ≤ n)
    (hok : (runSeq mem (new_BitReader len) ns).2.err = false) :
    (runSeq mem (new_BitReader len) ns).2.bits ≤ 7 :=
  runSeq_bits_le mem ns (new_BitReader len) (by show (0 : Nat) ≤ 7 ; omega) hok

/-- Witness for C8 at a concrete input: reading 3 then 5 bits from the
one-byte buffer `[0xAB]` succeeds and leaves 0 buffered bits. -/
theorem claim8_no_overread_witness :
    (∀ n ∈ [3, 5], 1 ≤ n) ∧
    (runSeq (memOfBytes [171]) (new_BitReader 1) [3, 5]).2.err = false ∧
    (runSeq (memOfBytes [171]) (new_BitReader 1) [3, 5]).2.bits ≤ 7 := by
  have hok : (runSeq (memOfBytes [171]) (new_BitReader 1) [3, 5]).2.err = false := by
    simp [runSeq, read_bits.eq_def, next_byte, memOfBytes, charOfByte, u64ofChar,
      new_BitReader, cMask]
  exact ⟨by decide, hok, claim8_no_overread (memOfBytes [171]) 1 [3, 5] (by decide) hok⟩

/-- Claim C10: the value fetched out of bounds is never observable — two
memories that agree on the cells below `len` produce identical values and
identical reader state under every `read_bits` call sequence. -/
theorem claim10_oob_byte_unobservable (mem₁ mem₂ : Nat → Int) (len : Nat)
    (ns : List Nat) (hagree : ∀ i, i < len → mem₁ i = mem₂ i) :
    runSeq mem₁ (new_BitReader len) ns = runSeq mem₂ (new_BitReader len) ns :=
  runSeq_mem_congr mem₁ mem₂ ns (new_BitReader len) (fun i hi => hagree i hi)

/-- Witness for C10 at a concrete input: two memories equal on the single
in-bounds cell and different beyond it. -/
theorem claim10_oob_byte_unobservable_witness :
    (∀ i, i < 1 → (fun j => if j = 0 then (1 : Int) else 7) i =
      (fun j => if j = 0 then (1 : Int) else 9) i) ∧
    runSeq (fun j => if j = 0 then (1 : Int) else 7) (new_BitReader 1) [1, 8, 1] =
      runSeq (fun j => if j = 0 then (1 : Int) else 9) (new_BitReader 1) [1, 8, 1] :=
  ⟨by decide,
    claim10_oob_byte_unobservable (fun j => if j = 0 then (1 : Int) else 7)
      (fun j => if j = 0 then (1 : Int) else 9) 1 [1, 8, 1] (by decide)⟩

/-- Counterexample to C5 as stated: on an empty buffer the first `next_byte`
call sets the error flag with the cursor at 1, yet a second call still
advances the cursor to 2 — the position does advance after the error. -/
theorem claim5_counterexample :
    ((next_byte (fun _ => 0) { curr := 0, len := 0, err := false, oob := false }).2.err = true) ∧
    ((next_byte (fun _ => 0) { curr := 0, len := 0, err := false, oob := false }).2.curr = 1) ∧
    ((next_byte (fun _ => 0)
      (next_byte (fun _ => 0)
        { curr := 0, len := 0, err := false, oob := false }).2).2.curr = 2) := by
  decide

/-- Claim C5 amended: once the error flag is true (the cursor then being at
or past the end), every further `next_byte` call keeps the error flag true
and performs only an out-of-bounds access — no byte of the buffer is
returned — but the cursor still advances by 1 on every call. -/
theorem claim5_sticky_error_cursor (mem : Nat → Int) (r : Reader)
    (_herr : r.err = true) (hge : r.len ≤ r.curr) :
    (next_byte mem r).2.err = true ∧
    (next_byte mem r).2.oob = true ∧
    (next_byte mem r).2.curr = r.curr + 1 ∧
    (next_byte mem r).2.len ≤ (next_byte mem r).2.curr := by
  refine ⟨?_, ?_, rfl, ?_⟩
  · simp [next_byte, hge]
  · simp [next_byte, hge]
  · show r.len ≤ r.curr + 1
    omega

/-- Witness for the amended C5 at a concrete errored cursor state. -/
theorem claim5_sticky_error_cursor_witness :
    (({ curr := 3, len := 2, err := true, oob := true } : Reader).err = true) ∧
    (({ curr := 3, len := 2, err := true, oob := true } : Reader).len ≤ 3) ∧
    ((next_byte (fun _ => 5) { curr := 3, len := 2, err := true, oob := true }).2.err = true ∧
     (next_byte (fun _ => 5) { curr := 3, len := 2, err := true, oob := true }).2.oob = true ∧
     (next_byte (fun _ => 5) { curr := 3, len := 2, err := true, oob := true }).2.curr = 3 + 1 ∧
     (next_byte (fun _ => 5) { curr := 3, len := 2, err := true, oob := true }).2.len ≤
       (next_byte (fun _ => 5) { curr := 3, len := 2, err := true, oob := true }).2.curr) :=
  ⟨by decide, by decide,
    claim5_sticky_error_cursor (fun _ => 5)
      { curr := 3, len := 2, err := true, oob := true } (by decide) (by decide)⟩

/-- Counterexample to C6 as stated: on buffer `[0xFF]`, after reading 1 bit
a request for 8 bits fails and sets the sticky error, yet the next call,
asking for 3 of the 7 still-buffered bits, returns the successful value 7
instead of the failure indication 0. -/
theorem claim6_counterexample :
    ((runSeq (memOfBytes [255]) (new_BitReader 1) [1, 8]).2.err = true) ∧
    ((read_bits (memOfBytes [255])
      (runSeq (memOfBytes [255]) (new_BitReader 1) [1, 8]).2 3).1 = 7) := by
  have hstate : (runSeq (memOfBytes [255]) (new_BitReader 1) [1, 8]).2 =
      { r := { curr := 2, len := 1, err := true, oob := true },
        n := 18446744073709551615, bits := 7, nRead := 1, err := true } := by
    simp [runSeq, read_bits.eq_def, next_byte, memOfBytes, charOfByte, u64ofChar,
      new_BitReader, cMask]
  rw [hstate]
  refine ⟨rfl, ?_⟩
  rw [read_bits_extract _ _ 3 (by decide)]
  decide

/-- Claim C6 amended: once the reader error flag is true, every subsequent
`read_bits` call that needs a refill (`n` exceeds the buffered bits — in
particular every repetition of the request that failed, and every call once
no bits remain buffered) returns the failure indication 0 with the error
flag still true; a request satisfiable from buffered bits instead returns
those bits. -/
theorem claim6_sticky_error_refill (mem : Nat → Int) (br : BitReader) (n : Nat)
    (_herr : br.err = true) (hrerr : br.r.err = true) (hb : br.bits < n) :
    (read_bits mem br n).1 = 0 ∧ (read_bits mem br n).2.err = true := by
  rw [read_bits_fail_step mem br n hb (Or.inr hrerr)]
  exact ⟨rfl, rfl⟩

/-- Witness for the amended C6 at a concrete errored reader state. -/
theorem claim6_sticky_error_refill_witness :
    (({ r := { curr := 2, len := 1, err := true, oob := true },
        n := 255, bits := 7, nRead := 1, err := true } : BitReader).err = true) ∧
    (({ r := { curr := 2, len := 1, err := true, oob := true },
        n := 255, bits := 7, nRead := 1, err := true } : BitReader).r.err = true) ∧
    (({ r := { curr := 2, len := 1, err := true, oob := true },
        n := 255, bits := 7, nRead := 1, err := true } : BitReader).bits < 8) ∧
    ((read_bits (fun _ => 0)
      { r := { curr := 2, len := 1, err := true, oob := true },
        n := 255, bits := 7, nRead := 1, err := true } 8).1 = 0 ∧
     (read_bits (fun _ => 0)
      { r := { curr := 2, len := 1, err := true, oob := true },
        n := 255, bits := 7, nRead := 1, err := true } 8).2.err = true) :=
  ⟨by decide, by decide, by decide,
    claim6_sticky_error_refill (fun _ => 0)
      { r := { curr := 2, len := 1, err := true, oob := true },
        n := 255, bits := 7, nRead := 1, err := true } 8 (by decide) (by decide) (by decide)⟩

/-- Claim C7 is violated by the code: on the empty buffer, the very first
refill calls `next_byte` with `curr = len = 0`, which sets the error flag
but still evaluates `data[curr]` — an out-of-bounds read, witnessed by the
ghost `oob` flag of the final state. -/
theorem claim7_oob_read_on_empty :
    ∃ v br', read_levelprefix (memOfBytes []) 0 = some (v, br') ∧ br'.r.oob = true := by
  refine ⟨-1,
    { r := { curr := 1, len := 0, err := true, oob := true },
      n := 0, bits := 0, nRead := 0, err := true }, ?_, rfl⟩
  simp [ read_levelprefix, read_levelprefix_aux, read_bits.eq_def, next_byte, new_BitReader]

/-- Claim C2 is violated by the code (signed-char slip): on buffer
`[0x00, 0x80]` the 16-bit read succeeds but returns `0xFF80` — the second
byte is sign-extended before being ORed into the accumulator, corrupting
the bits of the first byte — while the first 16 bits of the buffer MSB-first
form the value `0x0080`. -/
theorem claim2_sign_extension_divergence :
    ((read_bits (memOfBytes [0, 128]) (new_BitReader 2) 16).2.err = false) ∧
    ((read_bits (memOfBytes [0, 128]) (new_BitReader 2) 16).1 = 65408) ∧
    bitsVal [0, 128] 16 = 128 := by
  have h : read_bits (memOfBytes [0, 128]) (new_BitReader 2) 16 =
      (65408,
        { r := { curr := 2, len := 2, err := false, oob := false },
          n := 18446744073709551488, bits := 0, nRead := 2, err := false }) := by
    simp [read_bits.eq_def, next_byte, memOfBytes, charOfByte, u64ofChar,
      new_BitReader, cMask]
    decide
  rw [h]
  exact ⟨rfl, rfl, by decide⟩

/-- Claim C3 is violated by the code (same signed-char slip): on buffer
`[0x00, 0x80]`, reading 8 then 8 bits yields `(0x00, 0x80)`, while a single
16-bit read yields `0xFF80`, whose top 8 bits are `0xFF ≠ 0x00`; all three
calls succeed. -/
theorem claim3_split_divergence :
    ((read_bits (memOfBytes [0, 128]) (new_BitReader 2) 8).2.err = false) ∧
    ((read_bits (memOfBytes [0, 128]) (new_BitReader 2) 8).1 = 0) ∧
    ((read_bits (memOfBytes [0, 128])
        (read_bits (memOfBytes [0, 128]) (new_BitReader 2) 8).2 8).2.err = false) ∧
    ((read_bits (memOfBytes [0, 128])
        (read_bits (memOfBytes [0, 128]) (new_BitReader 2) 8).2 8).1 = 128) ∧
    ((read_bits (memOfBytes [0, 128]) (new_BitReader 2) 16).2.err = false) ∧
    ((read_bits (memOfBytes [0, 128]) (new_BitReader 2) 16).1 / 2 ^ 8 = 255) ∧
    ((read_bits (memOfBytes [0, 128]) (new_BitReader 2) 16).1 % 2 ^ 8 = 128) ∧
    ((read_bits (memOfBytes [0, 128]) (new_BitReader 2) 8).1 ≠
      (read_bits (memOfBytes [0, 128]) (new_BitReader 2) 16).1 / 2 ^ 8) := by
  have h8 : read_bits (memOfBytes [0, 128]) (new_BitReader 2) 8 =
      (0,
        { r := { curr := 1, len := 2, err := false, oob := false },
          n := 0, bits := 0, nRead := 1, err := false }) := by
    simp [read_bits.eq_def, next_byte, memOfBytes, charOfByte, u64ofChar,
      new_BitReader, cMask]
  have h88 : read_bits (memOfBytes [0, 128])
      { r := { curr := 1, len := 2, err := false, oob := false },
        n := 0, bits := 0, nRead := 1, err := false } 8 =
      (128,
        { r := { curr := 2, len := 2, err := false, oob := false },
          n := 18446744073709551488, bits := 0, nRead := 2, err := false }) := by
    simp [read_bits.eq_def, next_byte, memOfBytes, charOfByte, u64ofChar, cMask]
    decide
  have h16 : read_bits (memOfBytes [0, 128]) (new_BitReader 2) 16 =
      (65408,
        { r := { curr := 2, len := 2, err := false, oob := false },
          n := 18446744073709551488, bits := 0, nRead := 2, err := false }) := by
    simp [read_bits.eq_def, next_byte, memOfBytes, charOfByte, u64ofChar,
      new_BitReader, cMask]
    decide
  rw [h8, h88, h16]
  refine ⟨rfl, rfl, rfl, rfl, rfl, by decide, by decide, by decide⟩

/-- Claim C1: on every byte buffer whose first 1-bit (MSB-first, 0-indexed)
sits at bit index `k`, with at least `k + 1` bits in the buffer,
`read_levelprefix` on a fresh reader returns exactly `k` (so a leading
1-bit yields 0). -/
theorem claim1_levelprefix_value (l : List Nat) (k : Nat)
    (_hbytes : ∀ b ∈ l, b < 256)
    (hzero : ∀ j, j < k → bitAt l j = 0)
    (hone : bitAt l k = 1)
    (hlen : k < 8 * l.length) :
    ∃ br', read_levelprefix (memOfBytes l) l.length = some ((k : Int), br') := by
  obtain ⟨br', h⟩ := aux_first_one (memOfBytes l) l.length (8 * l.length + 1) 0 k (-1)
    (new_BitReader l.length) (goodState_new _ _) (Nat.zero_le k) hlen
    (fun j _ hj2 => by rw [← bitAt_eq_bitOfStream]; exact hzero j hj2)
    (by rw [← bitAt_eq_bitOfStream]; exact hone) (by omega)
  rw [show (-1 : Int) + ((k - 0 : Nat) : Int) + 1 = (k : Int) from by omega] at h
  exact ⟨br', h⟩

/-- Witness for C1 on the buffer `[0b01000000]`, whose first 1-bit is at
index 1. -/
theorem claim1_levelprefix_value_witness :
    (∀ b ∈ [64], b < 256) ∧ (∀ j, j < 1 → bitAt [64] j = 0) ∧ bitAt [64] 1 = 1 ∧
    1 < 8 * [64].length ∧
    ∃ br', read_levelprefix (memOfBytes [64]) [64].length = some ((1 : Int), br') :=
  ⟨by decide, by decide, by decide, by decide,
    claim1_levelprefix_value [64] 1 (by decide) (by decide) (by decide) (by decide)⟩

/-- Claim C4: on every all-zero buffer (the empty buffer included),
`read_levelprefix` returns the sentinel `-1`, the reader error flag ends
true, and `nRead` equals the full byte length of the buffer. -/
theorem claim4_all_zero_exhausts (l : List Nat) (hz : ∀ b ∈ l, b = 0) :
    ∃ br', read_levelprefix (memOfBytes l) l.length = some (-1, br') ∧
      br'.err = true ∧ br'.nRead = l.length := by
  have hbit : ∀ j, bitOfStream (memOfBytes l) j = 0 := by
    intro j
    rw [← bitAt_eq_bitOfStream]
    unfold bitAt
    have hg : l.getD (j / 8) 0 = 0 := by
      rcases Nat.lt_or_ge (j / 8) l.length with h | h
      · rw [List.getD_eq_getElem l 0 h]
        exact hz _ (List.getElem_mem h)
      · exact List.getD_eq_default l 0 (by omega)
    rw [hg]
    simp
  obtain ⟨br', h, herr, hnr, _⟩ := aux_all_zero (memOfBytes l) l.length
    (8 * l.length + 1) 0 (-1) (new_BitReader l.length) (goodState_new _ _)
    (fun j _ _ => hbit j) (by omega)
  exact ⟨br', h, herr, hnr⟩

/-- Witness for C4 on the two-byte all-zero buffer. -/
theorem claim4_all_zero_exhausts_witness :
    (∀ b ∈ [0, 0], b = 0) ∧
    ∃ br', read_levelprefix (memOfBytes [0, 0]) [0, 0].length = some (-1, br') ∧
      br'.err = true ∧ br'.nRead = [0, 0].length :=
  ⟨by decide, claim4_all_zero_exhausts [0, 0] (by decide)⟩
